import Mathlib

/-!
Verification of the plist transcoder (`src/nu_plist.rs`).

The module under verification converts between two tree-shaped value models:
`plist::Value` (the structured-document side, here `PlistValue`) and the host
environment's `Value` (here `NuValue`).  The two entry points are
`convert_plist_value` (decode, structured to dynamic) and `convert_nu_value`
(encode, dynamic to structured), with helpers `convert_array`, `convert_dict`,
`convert_nu_dict` and the date utility `convert_date`.

Modelling conventions:
- Source spans (`Span`) are presentation metadata threaded through unchanged by
  the code; they carry no information any property depends on, so they are
  dropped from the embedding.
- 64-bit floating-point payloads are carried as `ℚ`: the code never performs
  float arithmetic, it only copies payloads verbatim, except for the one cast
  `uid.get() as f64`, which is embedded exactly as IEEE-754 round-to-nearest,
  ties-to-even onto a 53-bit significand (`u64_as_f64`).
- Machine integers are `ℤ` with explicit range bounds where the code checks
  them (`Integer::as_signed` checks the `i64` range).
- Time instants are modelled at whole-second granularity as `ℤ` seconds since
  the Unix epoch; no verified property depends on sub-second precision.
- `plist::Value` is a non-exhaustive enum; the decoder's `_ =>` arm covers its
  reserved/unknown variants, represented here by the `reserved` constructor.
- A `LazyRecord` carries a deferred computation whose materialization
  (`collect`) either yields a value or a `ShellError`; for a fixed input that
  outcome is fixed, so it is embedded as the two constructors `lazyRecordOk`
  and `lazyRecordErr`.
-/

/-- `chrono::DateTime<FixedOffset>`: an absolute instant (seconds since the
Unix epoch, in UTC) together with a fixed UTC offset in seconds.  Calendar
fields are derived from the local time `instant + offset`. -/
structure DateTimeFixedOffset where
  instant : ℤ
  offset : ℤ
deriving DecidableEq, Repr

/-- The dynamic value model (`nu_protocol::Value`).  Payloads of variants the
transcoder never inspects (ranges, closures, cell paths, custom values) are
elided; only their tags matter to the code. -/
inductive NuValue where
  | string (val : String)
  | bool (val : Bool)
  | float (val : ℚ)
  | int (val : ℤ)
  | filesize (val : ℤ)
  | duration (val : ℤ)
  | date (val : DateTimeFixedOffset)
  | range
  | record (val : List (String × NuValue))
  | list (vals : List NuValue)
  | closure
  | nothing
  | error (msg : String)
  | binary (val : List Nat)
  | cellPath
  | customValue
  | lazyRecordOk (collected : NuValue)
  | lazyRecordErr (msg : String)

/-- The structured-document value model (`plist::Value`).  `integer` carries
the arbitrary-width payload of `plist::Integer`; `uid` carries the 64-bit
unsigned identifier of `plist::Uid`; `date` carries the absolute instant.
`reserved` stands for the enum's non-exhaustive/unknown variants, the ones the
decoder's `_ =>` arm matches. -/
inductive PlistValue where
  | string (s : String)
  | boolean (b : Bool)
  | real (r : ℚ)
  | date (instant : ℤ)
  | integer (i : ℤ)
  | uid (u : ℕ)
  | data (bytes : List Nat)
  | array (elems : List PlistValue)
  | dictionary (entries : List (String × PlistValue))
  | reserved

/-- The error type.  The code reports every failure as a `LabeledError` built
by `build_label_error`; the constructors below embed the distinct call sites:
- `integerRange`: decode of an out-of-range `Integer`, message
  `"Cannot convert {i} to i64"` (nu_plist.rs line 97);
- `unconvertible`: encode of an unmapped dynamic variant, message
  `"{:?} is not convertible"` carrying the offending value (line 160);
- `shellError`: a `ShellError` from `LazyRecord::collect` propagated by `?`
  (line 152);
- `notARecord`: `as_record` failing on a materialized non-record (line 154);
- `colsValsMismatch`: `Record::from_raw_cols_vals` rejecting column/value
  lists of different lengths (line 115). -/
inductive ConvError where
  | integerRange (i : ℤ)
  | unconvertible (v : NuValue)
  | shellError (msg : String)
  | notARecord (v : NuValue)
  | colsValsMismatch

/-- `plist::Integer::as_signed`: the payload when it fits in `i64`. -/
def as_signed (i : ℤ) : Option ℤ :=
  if -(2 ^ 63) ≤ i ∧ i < 2 ^ 63 then some i else none

/-- Round `n / d` to the nearest integer, ties to even (`d > 0`). -/
def roundEvenDiv (n d : Nat) : Nat :=
  let q := n / d
  let r := n % d
  if 2 * r < d then q
  else if d < 2 * r then q + 1
  else if q % 2 = 0 then q else q + 1

/-- The Rust cast `u64 as f64`: IEEE-754 round-to-nearest, ties-to-even onto a
53-bit significand.  Inputs are `u64` values, hence below `2 ^ 64`; the final
branch also covers larger naturals so the function is total. -/
def u64_as_f64 (n : Nat) : Nat :=
  if n < 2 ^ 53 then n
  else if n < 2 ^ 54 then roundEvenDiv n 2 * 2
  else if n < 2 ^ 55 then roundEvenDiv n 4 * 4
  else if n < 2 ^ 56 then roundEvenDiv n 8 * 8
  else if n < 2 ^ 57 then roundEvenDiv n 16 * 16
  else if n < 2 ^ 58 then roundEvenDiv n 32 * 32
  else if n < 2 ^ 59 then roundEvenDiv n 64 * 64
  else if n < 2 ^ 60 then roundEvenDiv n 128 * 128
  else if n < 2 ^ 61 then roundEvenDiv n 256 * 256
  else if n < 2 ^ 62 then roundEvenDiv n 512 * 512
  else if n < 2 ^ 63 then roundEvenDiv n 1024 * 1024
  else roundEvenDiv n 2048 * 2048

/-- `convert_date` (nu_plist.rs lines 127-134): the plist date's instant is
read as a `SystemTime`, converted to `DateTime<Utc>` (same instant), and
`with_timezone` re-tags it with `Utc.fix()`, the fixed offset `+00:00`,
preserving the instant. -/
def convert_date (plist_date : ℤ) : DateTimeFixedOffset :=
  let utc_instant : ℤ := plist_date
  let utc_offset : ℤ := 0
  { instant := utc_instant, offset := utc_offset }

/-- `Record::from_raw_cols_vals`: pairs columns with values, failing when the
two lists have different lengths. -/
def from_raw_cols_vals (cols : List String) (vals : List NuValue) :
    Except ConvError (List (String × NuValue)) :=
  if cols.length = vals.length then .ok (cols.zip vals) else .error .colsValsMismatch

mutual

/-- `convert_plist_value` (nu_plist.rs lines 88-106): the decoder. -/
def convert_plist_value : PlistValue → Except ConvError NuValue
  | .string s => .ok (.string s)
  | .boolean b => .ok (.bool b)
  | .real r => .ok (.float r)
  | .date d => .ok (.date (convert_date d))
  | .integer i =>
      match as_signed i with
      | some signed => .ok (.int signed)
      | none => .error (.integerRange i)
  | .uid u => .ok (.float ((u64_as_f64 u : ℕ) : ℚ))
  | .data bytes => .ok (.binary bytes)
  | .array arr => do .ok (.list (← convert_array arr))
  | .dictionary dict => do
      let cols := dict.map Prod.fst
      let vals ← convert_dict_vals dict
      let entries ← from_raw_cols_vals cols vals
      .ok (.record entries)
  | .reserved => .ok .nothing
termination_by structural pv => pv

/-- `convert_array` (lines 120-125): `iter().map(convert_plist_value).collect()`
over a `Result`, written as the structural recursion it computes. -/
def convert_array : List PlistValue → Except ConvError (List NuValue)
  | [] => .ok []
  | v :: rest => do
      let w ← convert_plist_value v
      let ws ← convert_array rest
      .ok (w :: ws)

/-- The `dict.values().map(convert_plist_value).collect()` step of
`convert_dict` (lines 110-113). -/
def convert_dict_vals : List (String × PlistValue) → Except ConvError (List NuValue)
  | [] => .ok []
  | (_, v) :: rest => do
      let w ← convert_plist_value v
      let ws ← convert_dict_vals rest
      .ok (w :: ws)

end

/-- `convert_dict` (lines 108-118): keys collected first, values converted
left to right (first failure propagates), then zipped by
`Record::from_raw_cols_vals`.  Its body is also what the `dictionary` arm of
`convert_plist_value` computes (the arm inlines it so that the mutual
recursion is structural); `convert_plist_value_dictionary` records that. -/
def convert_dict (dict : List (String × PlistValue)) : Except ConvError NuValue := do
  let cols := dict.map Prod.fst
  let vals ← convert_dict_vals dict
  let entries ← from_raw_cols_vals cols vals
  .ok (.record entries)

mutual

/-- `convert_nu_value` (nu_plist.rs lines 136-164): the encoder.  A `Date`
encodes via `SystemTime::from`, which keeps the absolute instant and discards
the offset.  A `LazyRecord` is materialized (`collect`), must be a record
(`as_record`), and encodes as a dictionary.  The final arm fails with the
offending value, embedding `"{:?} is not convertible"`. -/
def convert_nu_value : NuValue → Except ConvError PlistValue
  | .string val => .ok (.string val)
  | .bool val => .ok (.boolean val)
  | .float val => .ok (.real val)
  | .int val => .ok (.integer val)
  | .binary val => .ok (.data val)
  | .record val => do .ok (.dictionary (← convert_nu_dict_entries val))
  | .list vals => do .ok (.array (← convert_nu_list vals))
  | .date val => .ok (.date val.instant)
  | .lazyRecordOk (.record r) => do .ok (.dictionary (← convert_nu_dict_entries r))
  | .lazyRecordOk other => .error (.notARecord other)
  | .lazyRecordErr msg => .error (.shellError msg)
  | .filesize val => .ok (.integer val)
  | v => .error (.unconvertible v)

/-- The `vals.iter().map(convert_nu_value).collect()` step of the `List` arm
(lines 145-149), written as the structural recursion it computes. -/
def convert_nu_list : List NuValue → Except ConvError (List PlistValue)
  | [] => .ok []
  | v :: rest => do
      let w ← convert_nu_value v
      let ws ← convert_nu_list rest
      .ok (w :: ws)

/-- The `record.iter().map(|(k, v)| ...).collect()` step of `convert_nu_dict`
(lines 168-171). -/
def convert_nu_dict_entries :
    List (String × NuValue) → Except ConvError (List (String × PlistValue))
  | [] => .ok []
  | (k, v) :: rest => do
      let w ← convert_nu_value v
      let ws ← convert_nu_dict_entries rest
      .ok ((k, w) :: ws)

end

/-- `convert_nu_dict` (lines 166-173).  Its body is what the `record` and
materialized-`LazyRecord` arms of `convert_nu_value` compute (the arms inline
it so that the mutual recursion is structural); `convert_nu_value_record`
records that. -/
def convert_nu_dict (record : List (String × NuValue)) : Except ConvError PlistValue := do
  .ok (.dictionary (← convert_nu_dict_entries record))

/-- The dynamic variants the encoder's `match` maps to a structured value
(every arm of nu_plist.rs lines 139-158 other than the final `_ =>`). -/
def hasPlistMapping : NuValue → Bool
  | .string _ => true
  | .bool _ => true
  | .float _ => true
  | .int _ => true
  | .binary _ => true
  | .record _ => true
  | .list _ => true
  | .date _ => true
  | .lazyRecordOk _ => true
  | .lazyRecordErr _ => true
  | .filesize _ => true
  | _ => false

mutual

/-- Membership in the decoder's image vocabulary: every node is a String,
Bool, Float, Int, Binary, Date, List, Record or Nothing. -/
def decodeImage : NuValue → Bool
  | .string _ => true
  | .bool _ => true
  | .float _ => true
  | .int _ => true
  | .binary _ => true
  | .date _ => true
  | .nothing => true
  | .list vs => decodeImageList vs
  | .record r => decodeImageEntries r
  | _ => false

/-- `decodeImage` on every element of a list. -/
def decodeImageList : List NuValue → Bool
  | [] => true
  | v :: rest => decodeImage v && decodeImageList rest

/-- `decodeImage` on every value of a record. -/
def decodeImageEntries : List (String × NuValue) → Bool
  | [] => true
  | (_, v) :: rest => decodeImage v && decodeImageEntries rest

end

/-- The civil (proleptic Gregorian) date of a day count relative to
1970-01-01, as `(year, month, day)`; the standard era-based algorithm used by
calendar libraries.  All intermediate quantities within an era are
non-negative, where Euclidean and truncating division agree. -/
def civilFromDays (z : ℤ) : ℤ × ℤ × ℤ :=
  let zd := z + 719468
  let era := zd.ediv 146097
  let doe := zd - era * 146097
  let yoe := (doe - doe.ediv 1460 + doe.ediv 36524 - doe.ediv 146096).ediv 365
  let y := yoe + era * 400
  let doy := doe - (365 * yoe + yoe.ediv 4 - yoe.ediv 100)
  let mp := (5 * doy + 2).ediv 153
  let d := doy - (153 * mp + 2).ediv 5 + 1
  let m := mp + (if mp < 10 then 3 else -9)
  (y + (if m ≤ 2 then 1 else 0), m, d)

/-- The calendar date a `chrono` fixed-offset datetime displays: civil date of
the local time `instant + offset`. -/
def localCivilDate (dt : DateTimeFixedOffset) : ℤ × ℤ × ℤ :=
  civilFromDays ((dt.instant + dt.offset).ediv 86400)

/-- The `dictionary` arm of the decoder computes `convert_dict`. -/
theorem convert_plist_value_dictionary (dict : List (String × PlistValue)) :
    convert_plist_value (.dictionary dict) = convert_dict dict := rfl

/-- The `record` arm of the encoder computes `convert_nu_dict`; so does the
materialized-`LazyRecord` arm. -/
theorem convert_nu_value_record (val : List (String × NuValue)) :
    convert_nu_value (.record val) = convert_nu_dict val ∧
    convert_nu_value (.lazyRecordOk (.record val)) = convert_nu_dict val :=
  ⟨rfl, rfl⟩

/-- Reducing `Except` bind on a success, for rewriting do-blocks. -/
theorem bind_ok_eq {α β : Type} (a : α) (f : α → Except ConvError β) :
    (Except.ok a >>= f) = f a := rfl

/-- Reducing `Except` bind on a failure, for rewriting do-blocks. -/
theorem bind_error_eq {α β : Type} (e : ConvError) (f : α → Except ConvError β) :
    ((Except.error e : Except ConvError α) >>= f) = Except.error e := rfl

/-- A successful `convert_dict_vals` yields one value per dictionary entry. -/
theorem convert_dict_vals_length (dict : List (String × PlistValue)) :
    ∀ vals, convert_dict_vals dict = .ok vals → vals.length = dict.length := by
  induction dict with
  | nil =>
      intro vals h
      simp [convert_dict_vals] at h
      simp [← h]
  | cons p rest ih =>
      obtain ⟨k, v⟩ := p
      intro vals h
      simp only [convert_dict_vals] at h
      cases hv : convert_plist_value v with
      | error e => rw [hv, bind_error_eq] at h; exact absurd h (by simp)
      | ok w =>
          rw [hv, bind_ok_eq] at h
          cases hr : convert_dict_vals rest with
          | error e => rw [hr, bind_error_eq] at h; exact absurd h (by simp)
          | ok ws =>
              rw [hr, bind_ok_eq] at h
              cases h
              simpa using ih ws hr

/-- A successful `convert_array` decodes the elements pointwise, in order. -/
theorem convert_array_ok_forall2 (arr : List PlistValue) :
    ∀ l, convert_array arr = .ok l →
      List.Forall₂ (fun pv v => convert_plist_value pv = .ok v) arr l := by
  induction arr with
  | nil =>
      intro l h
      simp [convert_array] at h
      simp [← h]
  | cons v rest ih =>
      intro l h
      simp only [convert_array] at h
      cases hv : convert_plist_value v with
      | error e => rw [hv, bind_error_eq] at h; exact absurd h (by simp)
      | ok w =>
          rw [hv, bind_ok_eq] at h
          cases hr : convert_array rest with
          | error e => rw [hr, bind_error_eq] at h; exact absurd h (by simp)
          | ok ws =>
              rw [hr, bind_ok_eq] at h
              cases h
              exact List.Forall₂.cons hv (ih ws hr)

/-- A successful `convert_dict_vals` decodes the entry values pointwise, in
order. -/
theorem convert_dict_vals_ok_forall2 (dict : List (String × PlistValue)) :
    ∀ vals, convert_dict_vals dict = .ok vals →
      List.Forall₂ (fun p v => convert_plist_value p.2 = .ok v) dict vals := by
  induction dict with
  | nil =>
      intro vals h
      simp [convert_dict_vals] at h
      simp [← h]
  | cons p rest ih =>
      obtain ⟨k, v⟩ := p
      intro vals h
      simp only [convert_dict_vals] at h
      cases hv : convert_plist_value v with
      | error e => rw [hv, bind_error_eq] at h; exact absurd h (by simp)
      | ok w =>
          rw [hv, bind_ok_eq] at h
          cases hr : convert_dict_vals rest with
          | error e => rw [hr, bind_error_eq] at h; exact absurd h (by simp)
          | ok ws =>
              rw [hr, bind_ok_eq] at h
              cases h
              exact List.Forall₂.cons hv (ih ws hr)

/-- First failure wins in `convert_nu_list`: when a prefix encodes cleanly and
the next element fails, the whole list fails with that element's error. -/
theorem convert_nu_list_append_error (pre : List NuValue) :
    ∀ ws x post e, convert_nu_list pre = .ok ws → convert_nu_value x = .error e →
      convert_nu_list (pre ++ x :: post) = .error e := by
  induction pre with
  | nil =>
      intro ws x post e _ hx
      simp only [List.nil_append, convert_nu_list]
      rw [hx, bind_error_eq]
  | cons v rest ih =>
      intro ws x post e h hx
      simp only [convert_nu_list] at h
      cases hv : convert_nu_value v with
      | error e2 => rw [hv, bind_error_eq] at h; exact absurd h (by simp)
      | ok w =>
          rw [hv, bind_ok_eq] at h
          cases hr : convert_nu_list rest with
          | error e2 => rw [hr, bind_error_eq] at h; exact absurd h (by simp)
          | ok ws2 =>
              simp only [List.cons_append, List.append_eq, convert_nu_list]
              rw [hv, bind_ok_eq, ih ws2 x post e hr hx, bind_error_eq]

/-- First failure wins in `convert_nu_dict_entries`. -/
theorem convert_nu_dict_entries_append_error (pre : List (String × NuValue)) :
    ∀ ws k x post e, convert_nu_dict_entries pre = .ok ws →
      convert_nu_value x = .error e →
      convert_nu_dict_entries (pre ++ (k, x) :: post) = .error e := by
  induction pre with
  | nil =>
      intro ws k x post e _ hx
      simp only [List.nil_append, convert_nu_dict_entries]
      rw [hx, bind_error_eq]
  | cons p rest ih =>
      obtain ⟨k2, v⟩ := p
      intro ws k x post e h hx
      simp only [convert_nu_dict_entries] at h
      cases hv : convert_nu_value v with
      | error e2 => rw [hv, bind_error_eq] at h; exact absurd h (by simp)
      | ok w =>
          rw [hv, bind_ok_eq] at h
          cases hr : convert_nu_dict_entries rest with
          | error e2 => rw [hr, bind_error_eq] at h; exact absurd h (by simp)
          | ok ws2 =>
              simp only [List.cons_append, List.append_eq, convert_nu_dict_entries]
              rw [hv, bind_ok_eq, ih ws2 k x post e hr hx, bind_error_eq]

/-- First failure wins in `convert_array`. -/
theorem convert_array_append_error (pre : List PlistValue) :
    ∀ ws x post e, convert_array pre = .ok ws → convert_plist_value x = .error e →
      convert_array (pre ++ x :: post) = .error e := by
  induction pre with
  | nil =>
      intro ws x post e _ hx
      simp only [List.nil_append, convert_array]
      rw [hx, bind_error_eq]
  | cons v rest ih =>
      intro ws x post e h hx
      simp only [convert_array] at h
      cases hv : convert_plist_value v with
      | error e2 => rw [hv, bind_error_eq] at h; exact absurd h (by simp)
      | ok w =>
          rw [hv, bind_ok_eq] at h
          cases hr : convert_array rest with
          | error e2 => rw [hr, bind_error_eq] at h; exact absurd h (by simp)
          | ok ws2 =>
              simp only [List.cons_append, List.append_eq, convert_array]
              rw [hv, bind_ok_eq, ih ws2 x post e hr hx, bind_error_eq]

/-- First failure wins in `convert_dict_vals`. -/
theorem convert_dict_vals_append_error (pre : List (String × PlistValue)) :
    ∀ ws k x post e, convert_dict_vals pre = .ok ws →
      convert_plist_value x = .error e →
      convert_dict_vals (pre ++ (k, x) :: post) = .error e := by
  induction pre with
  | nil =>
      intro ws k x post e _ hx
      simp only [List.nil_append, convert_dict_vals]
      rw [hx, bind_error_eq]
  | cons p rest ih =>
      obtain ⟨k2, v⟩ := p
      intro ws k x post e h hx
      simp only [convert_dict_vals] at h
      cases hv : convert_plist_value v with
      | error e2 => rw [hv, bind_error_eq] at h; exact absurd h (by simp)
      | ok w =>
          rw [hv, bind_ok_eq] at h
          cases hr : convert_dict_vals rest with
          | error e2 => rw [hr, bind_error_eq] at h; exact absurd h (by simp)
          | ok ws2 =>
              simp only [List.cons_append, List.append_eq, convert_dict_vals]
              rw [hv, bind_ok_eq, ih ws2 k x post e hr hx, bind_error_eq]

/-- The decoder's only failure site is the signed-64-bit narrowing of an
`Integer` (nu_plist.rs line 97): every error it returns is an `integerRange`
carrying an out-of-range payload.  Proved by the functional induction of
`convert_plist_value`, jointly with `convert_dict_vals` and `convert_array`. -/
theorem decode_error_only_integerRange (pv : PlistValue) :
    ∀ e, convert_plist_value pv = .error e →
      ∃ i : ℤ, e = ConvError.integerRange i ∧ (i < -(2 ^ 63) ∨ 2 ^ 63 ≤ i) := by
  refine convert_plist_value.induct
    (fun pv => ∀ e, convert_plist_value pv = .error e →
      ∃ i : ℤ, e = ConvError.integerRange i ∧ (i < -(2 ^ 63) ∨ 2 ^ 63 ≤ i))
    (fun dict => ∀ e, convert_dict_vals dict = .error e →
      ∃ i : ℤ, e = ConvError.integerRange i ∧ (i < -(2 ^ 63) ∨ 2 ^ 63 ≤ i))
    (fun arr => ∀ e, convert_array arr = .error e →
      ∃ i : ℤ, e = ConvError.integerRange i ∧ (i < -(2 ^ 63) ∨ 2 ^ 63 ≤ i))
    ?_ ?_ ?_ ?_ ?_ ?_ ?_ ?_ ?_ ?_ ?_ ?_ ?_ ?_ ?_ pv
  · intro s e h; simp [convert_plist_value] at h
  · intro b e h; simp [convert_plist_value] at h
  · intro r e h; simp [convert_plist_value] at h
  · intro d e h; simp [convert_plist_value] at h
  · intro i signed hs e h; simp [convert_plist_value, hs] at h
  · intro i hn e h
    simp only [convert_plist_value, hn] at h
    injection h with h2
    refine ⟨i, h2.symm, ?_⟩
    rw [as_signed] at hn
    split at hn
    · exact absurd hn (by simp)
    · next hcond =>
        rcases not_and_or.mp hcond with h1 | h1
        · exact Or.inl (not_le.mp h1)
        · exact Or.inr (not_lt.mp h1)
  · intro u e h; simp [convert_plist_value] at h
  · intro bytes e h; simp [convert_plist_value] at h
  · intro arr ih e h
    simp only [convert_plist_value] at h
    cases ha : convert_array arr with
    | error e2 =>
        rw [ha, bind_error_eq] at h
        injection h with h2
        exact h2 ▸ ih e2 ha
    | ok ws => rw [ha, bind_ok_eq] at h; exact absurd h (by simp)
  · intro dict ih e h
    simp only [convert_plist_value] at h
    cases hd : convert_dict_vals dict with
    | error e2 =>
        rw [hd, bind_error_eq] at h
        injection h with h2
        exact h2 ▸ ih e2 hd
    | ok vals =>
        rw [hd, bind_ok_eq] at h
        have hlen : (dict.map Prod.fst).length = vals.length := by
          simp [convert_dict_vals_length dict vals hd]
        rw [from_raw_cols_vals, if_pos hlen, bind_ok_eq] at h
        exact absurd h (by simp)
  · intro e h; simp [convert_plist_value] at h
  · intro e h; simp [convert_array] at h
  · intro v rest ihv ihr e h
    simp only [convert_array] at h
    cases hv : convert_plist_value v with
    | error e2 =>
        rw [hv, bind_error_eq] at h
        injection h with h2
        exact h2 ▸ ihv e2 hv
    | ok w =>
        rw [hv, bind_ok_eq] at h
        cases hr : convert_array rest with
        | error e2 =>
            rw [hr, bind_error_eq] at h
            injection h with h2
            exact h2 ▸ ihr e2 hr
        | ok ws => rw [hr, bind_ok_eq] at h; exact absurd h (by simp)
  · intro e h; simp [convert_dict_vals] at h
  · intro k v rest ihv ihr e h
    simp only [convert_dict_vals] at h
    cases hv : convert_plist_value v with
    | error e2 =>
        rw [hv, bind_error_eq] at h
        injection h with h2
        exact h2 ▸ ihv e2 hv
    | ok w =>
        rw [hv, bind_ok_eq] at h
        cases hr : convert_dict_vals rest with
        | error e2 =>
            rw [hr, bind_error_eq] at h
            injection h with h2
            exact h2 ▸ ihr e2 hr
        | ok ws => rw [hr, bind_ok_eq] at h; exact absurd h (by simp)

/-- Zipping keys with values whose nodes are all in the decoder's image
vocabulary gives entries whose values all are. -/
theorem decodeImageList_zip (cols : List String) :
    ∀ vals, decodeImageList vals = true →
      decodeImageEntries (cols.zip vals) = true := by
  induction cols with
  | nil => intro vals _; simp [List.zip, decodeImageEntries]
  | cons c rest ih =>
      intro vals h
      cases vals with
      | nil => simp [List.zip, decodeImageEntries]
      | cons v vs =>
          simp only [List.zip_cons_cons, decodeImageEntries]
          simp only [decodeImageList, Bool.and_eq_true] at h
          rw [h.1, Bool.true_and]
          exact ih vs h.2

/-- Pointwise decode of a dictionary's values lifts to its zipped record:
keys are preserved in order and values are the decoded values. -/
theorem forall2_entries_zip (dict : List (String × PlistValue)) :
    ∀ vals, List.Forall₂ (fun p v => convert_plist_value p.2 = .ok v) dict vals →
      List.Forall₂
        (fun p q => p.1 = q.1 ∧ convert_plist_value p.2 = Except.ok q.2) dict
        ((dict.map Prod.fst).zip vals) := by
  induction dict with
  | nil => intro vals h; cases h; simp
  | cons p rest ih =>
      intro vals h
      cases h with
      | cons hpv htail =>
          simp only [List.map_cons, List.zip_cons_cons]
          exact List.Forall₂.cons ⟨rfl, hpv⟩ (ih _ htail)

/-- Every value the decoder emits, at any depth, stays in the image
vocabulary (String, Bool, Float, Int, Binary, Date, List, Record, Nothing). -/
theorem decode_ok_decodeImage (pv : PlistValue) :
    ∀ v, convert_plist_value pv = .ok v → decodeImage v = true := by
  refine convert_plist_value.induct
    (fun pv => ∀ v, convert_plist_value pv = .ok v → decodeImage v = true)
    (fun dict => ∀ l, convert_dict_vals dict = .ok l → decodeImageList l = true)
    (fun arr => ∀ l, convert_array arr = .ok l → decodeImageList l = true)
    ?_ ?_ ?_ ?_ ?_ ?_ ?_ ?_ ?_ ?_ ?_ ?_ ?_ ?_ ?_ pv
  · intro s v h; simp only [convert_plist_value] at h; cases h; rfl
  · intro b v h; simp only [convert_plist_value] at h; cases h; rfl
  · intro r v h; simp only [convert_plist_value] at h; cases h; rfl
  · intro d v h; simp only [convert_plist_value] at h; cases h; rfl
  · intro i signed hs v h
    simp only [convert_plist_value, hs] at h
    cases h; rfl
  · intro i hn v h; simp [convert_plist_value, hn] at h
  · intro u v h; simp only [convert_plist_value] at h; cases h; rfl
  · intro bytes v h; simp only [convert_plist_value] at h; cases h; rfl
  · intro arr ih v h
    simp only [convert_plist_value] at h
    cases ha : convert_array arr with
    | error e => rw [ha, bind_error_eq] at h; exact absurd h (by simp)
    | ok ws =>
        rw [ha, bind_ok_eq] at h
        cases h
        simpa only [decodeImage] using ih ws ha
  · intro dict ih v h
    simp only [convert_plist_value] at h
    cases hd : convert_dict_vals dict with
    | error e => rw [hd, bind_error_eq] at h; exact absurd h (by simp)
    | ok vals =>
        rw [hd, bind_ok_eq] at h
        have hlen : (dict.map Prod.fst).length = vals.length := by
          simp [convert_dict_vals_length dict vals hd]
        rw [from_raw_cols_vals, if_pos hlen, bind_ok_eq] at h
        cases h
        simpa only [decodeImage] using decodeImageList_zip _ vals (ih vals hd)
  · intro v h; simp only [convert_plist_value] at h; cases h; rfl
  · intro l h; simp only [convert_array] at h; cases h; rfl
  · intro v rest ihv ihr l h
    simp only [convert_array] at h
    cases hv : convert_plist_value v with
    | error e => rw [hv, bind_error_eq] at h; exact absurd h (by simp)
    | ok w =>
        rw [hv, bind_ok_eq] at h
        cases hr : convert_array rest with
        | error e => rw [hr, bind_error_eq] at h; exact absurd h (by simp)
        | ok ws =>
            rw [hr, bind_ok_eq] at h
            cases h
            simp [decodeImageList, ihv w hv, ihr ws hr]
  · intro l h; simp only [convert_dict_vals] at h; cases h; rfl
  · intro k v rest ihv ihr l h
    simp only [convert_dict_vals] at h
    cases hv : convert_plist_value v with
    | error e => rw [hv, bind_error_eq] at h; exact absurd h (by simp)
    | ok w =>
        rw [hv, bind_ok_eq] at h
        cases hr : convert_dict_vals rest with
        | error e => rw [hr, bind_error_eq] at h; exact absurd h (by simp)
        | ok ws =>
            rw [hr, bind_ok_eq] at h
            cases h
            simp [decodeImageList, ihv w hv, ihr ws hr]

/-- Claim C1: decode of an `Integer` fails with the integer-range error
exactly when the payload is outside the signed 64-bit range, producing no
output in that case; this is the only failure path in the whole decoder; and
every in-range `Integer` decodes to the `Int` with the same numeric value. -/
theorem decode_integer_range_exactly :
    (∀ i : ℤ, -(2 ^ 63) ≤ i → i < 2 ^ 63 →
      convert_plist_value (.integer i) = .ok (.int i)) ∧
    (∀ i : ℤ, (i < -(2 ^ 63) ∨ 2 ^ 63 ≤ i) →
      convert_plist_value (.integer i) = .error (.integerRange i)) ∧
    (∀ pv e, convert_plist_value pv = .error e →
      ∃ i : ℤ, e = ConvError.integerRange i ∧ (i < -(2 ^ 63) ∨ 2 ^ 63 ≤ i)) := by
  refine ⟨?_, ?_, fun pv => decode_error_only_integerRange pv⟩
  · intro i h1 h2
    have hs : as_signed i = some i := by rw [as_signed, if_pos ⟨h1, h2⟩]
    simp [convert_plist_value, hs]
  · intro i h
    have hs : as_signed i = none := by
      rw [as_signed, if_neg]
      rintro ⟨h1, h2⟩
      rcases h with h | h
      · linarith
      · linarith
    simp [convert_plist_value, hs]

/-- Witness for C1: the in-range value 42 decodes to 42, and the largest
unsigned 64-bit value fails with the integer-range error. -/
theorem decode_integer_range_exactly_witness :
    convert_plist_value (.integer 42) = .ok (.int 42) ∧
    convert_plist_value (.integer (2 ^ 64 - 1)) =
      .error (.integerRange (2 ^ 64 - 1)) :=
  ⟨decode_integer_range_exactly.1 42 (by norm_num) (by norm_num),
   decode_integer_range_exactly.2.1 (2 ^ 64 - 1) (Or.inr (by norm_num))⟩

/-- Claim C2: encoding any dynamic variant without a structured mapping fails
with the unconvertible-value error carrying the offending value, and produces
no output. -/
theorem encode_unmapped_fails (v : NuValue) :
    hasPlistMapping v = false →
    convert_nu_value v = .error (.unconvertible v) := by
  intro h
  cases v <;> first
    | rfl
    | simp [hasPlistMapping] at h

/-- Witness for C2: `Nothing` has no mapping and fails carrying itself. -/
theorem encode_unmapped_fails_witness :
    convert_nu_value .nothing = .error (.unconvertible .nothing) :=
  encode_unmapped_fails .nothing rfl

/-- Claim C3: on every representable leaf (Text, Boolean, Real, Binary),
decode followed by encode returns the same variant with the same payload. -/
theorem decode_encode_leaf_roundtrip :
    (∀ s : String,
      (convert_plist_value (.string s)).bind convert_nu_value = .ok (.string s)) ∧
    (∀ b : Bool,
      (convert_plist_value (.boolean b)).bind convert_nu_value = .ok (.boolean b)) ∧
    (∀ r : ℚ,
      (convert_plist_value (.real r)).bind convert_nu_value = .ok (.real r)) ∧
    (∀ bytes : List Nat,
      (convert_plist_value (.data bytes)).bind convert_nu_value = .ok (.data bytes)) :=
  ⟨fun _ => rfl, fun _ => rfl, fun _ => rfl, fun _ => rfl⟩

/-- Claim C4: every `Int` within the signed 64-bit range encodes and then
decodes back to itself. -/
theorem encode_decode_int_roundtrip (v : ℤ) :
    -(2 ^ 63) ≤ v → v < 2 ^ 63 →
    (convert_nu_value (.int v)).bind convert_plist_value = .ok (.int v) := by
  intro h1 h2
  show convert_plist_value (.integer v) = .ok (.int v)
  have hs : as_signed v = some v := by rw [as_signed, if_pos ⟨h1, h2⟩]
  simp [convert_plist_value, hs]

/-- Witness for C4: the round trip at 42. -/
theorem encode_decode_int_roundtrip_witness :
    (convert_nu_value (.int 42)).bind convert_plist_value = .ok (.int 42) :=
  encode_decode_int_roundtrip 42 (by norm_num) (by norm_num)

/-- Claim C5: in every container conversion the first failing element's error
aborts the whole conversion — encode over List and Record, and decode over
Sequence and Mapping; only the error is returned, never any sibling data. -/
theorem container_first_failure_wins :
    (∀ (pre : List NuValue) ws x post e,
      convert_nu_list pre = .ok ws → convert_nu_value x = .error e →
      convert_nu_value (.list (pre ++ x :: post)) = .error e) ∧
    (∀ (pre : List (String × NuValue)) ws k x post e,
      convert_nu_dict_entries pre = .ok ws → convert_nu_value x = .error e →
      convert_nu_value (.record (pre ++ (k, x) :: post)) = .error e) ∧
    (∀ (pre : List PlistValue) ws x post e,
      convert_array pre = .ok ws → convert_plist_value x = .error e →
      convert_plist_value (.array (pre ++ x :: post)) = .error e) ∧
    (∀ (pre : List (String × PlistValue)) ws k x post e,
      convert_dict_vals pre = .ok ws → convert_plist_value x = .error e →
      convert_plist_value (.dictionary (pre ++ (k, x) :: post)) = .error e) := by
  refine ⟨?_, ?_, ?_, ?_⟩
  · intro pre ws x post e hpre hx
    simp only [convert_nu_value]
    rw [convert_nu_list_append_error pre ws x post e hpre hx, bind_error_eq]
  · intro pre ws k x post e hpre hx
    simp only [convert_nu_value]
    rw [convert_nu_dict_entries_append_error pre ws k x post e hpre hx,
      bind_error_eq]
  · intro pre ws x post e hpre hx
    simp only [convert_plist_value]
    rw [convert_array_append_error pre ws x post e hpre hx, bind_error_eq]
  · intro pre ws k x post e hpre hx
    simp only [convert_plist_value]
    rw [convert_dict_vals_append_error pre ws k x post e hpre hx, bind_error_eq]

/-- Witness for C5: concrete containers, one failing element each, siblings
both sides; each conversion returns exactly the failing element's error. -/
theorem container_first_failure_wins_witness :
    convert_nu_value (.list [.string "sib", .nothing, .bool true]) =
      .error (.unconvertible .nothing) ∧
    convert_nu_value (.record [("a", .string "sib"), ("b", .nothing)]) =
      .error (.unconvertible .nothing) ∧
    convert_plist_value (.array [.string "sib", .integer (2 ^ 63), .boolean true]) =
      .error (.integerRange (2 ^ 63)) ∧
    convert_plist_value (.dictionary [("a", .string "sib"), ("b", .integer (2 ^ 63))]) =
      .error (.integerRange (2 ^ 63)) :=
  ⟨container_first_failure_wins.1 [.string "sib"] [.string "sib"] .nothing
      [.bool true] (.unconvertible .nothing) rfl rfl,
   container_first_failure_wins.2.1
      ([("a", NuValue.string "sib")] : List (String × NuValue))
      ([("a", PlistValue.string "sib")] : List (String × PlistValue))
      "b" .nothing [] (.unconvertible .nothing) rfl rfl,
   container_first_failure_wins.2.2.1 [.string "sib"] [.string "sib"]
      (.integer (2 ^ 63)) [.boolean true] (.integerRange (2 ^ 63)) rfl
      (decode_integer_range_exactly.2.1 (2 ^ 63) (Or.inr (by norm_num))),
   container_first_failure_wins.2.2.2
      ([("a", PlistValue.string "sib")] : List (String × PlistValue))
      ([NuValue.string "sib"] : List NuValue)
      "b" (.integer (2 ^ 63)) [] (.integerRange (2 ^ 63)) rfl
      (decode_integer_range_exactly.2.1 (2 ^ 63) (Or.inr (by norm_num)))⟩

/-- Counterexample to C6 as stated: for the `UniqueID` 9007199254740993
(2 to the 53rd plus 1), the cast `uid.get() as f64` rounds to
9007199254740992, so the decoded Float does not equal the identifier's
numeric value. -/
theorem decode_uid_not_numeric_identity :
    convert_plist_value (.uid 9007199254740993) = .ok (.float 9007199254740992) ∧
    (9007199254740992 : ℚ) ≠ (9007199254740993 : ℚ) :=
  ⟨rfl, by norm_num⟩

/-- Claim C6 (amended): decode of a `UniqueID` yields a Float equal to the
identifier's numeric value rounded to the nearest IEEE-754 double (a numeric
conversion, not a bit-pattern reinterpretation); the Float equals the numeric
value exactly whenever the identifier is at most 2 to the 53rd. -/
theorem decode_uid_rounded_float (u : ℕ) :
    convert_plist_value (.uid u) = .ok (.float (u64_as_f64 u)) ∧
    (u ≤ 2 ^ 53 → ((u64_as_f64 u : ℕ) : ℚ) = (u : ℚ)) := by
  refine ⟨rfl, fun h => ?_⟩
  have heq : u64_as_f64 u = u := by
    rcases lt_or_eq_of_le h with h2 | h2
    · rw [u64_as_f64, if_pos h2]
    · subst h2
      decide
  rw [heq]

/-- Witness for C6: the spec's example identifier 12345678 is below 2 to the
53rd, so its decoded Float equals its numeric value. -/
theorem decode_uid_rounded_float_witness :
    convert_plist_value (.uid 12345678) = .ok (.float (u64_as_f64 12345678)) ∧
    ((u64_as_f64 12345678 : ℕ) : ℚ) = ((12345678 : ℕ) : ℚ) :=
  ⟨(decode_uid_rounded_float 12345678).1,
   (decode_uid_rounded_float 12345678).2 (by norm_num)⟩

/-- Claim C7: successful decoding of a Sequence is element-by-element in
order with the same count; successful decoding of a Mapping keeps the keys
verbatim in order, one entry per entry, the values decoded in order; and the
empty Mapping decodes to the empty Record, not to Nothing. -/
theorem decode_preserves_order_count :
    (∀ arr l, convert_plist_value (.array arr) = .ok (.list l) →
      l.length = arr.length ∧
      List.Forall₂ (fun pv v => convert_plist_value pv = Except.ok v) arr l) ∧
    (∀ dict r, convert_plist_value (.dictionary dict) = .ok (.record r) →
      r.length = dict.length ∧
      r.map Prod.fst = dict.map Prod.fst ∧
      List.Forall₂
        (fun p q => p.1 = q.1 ∧ convert_plist_value p.2 = Except.ok q.2) dict r) ∧
    convert_plist_value (.dictionary []) = .ok (.record []) := by
  refine ⟨?_, ?_, rfl⟩
  · intro arr l h
    simp only [convert_plist_value] at h
    cases ha : convert_array arr with
    | error e => rw [ha, bind_error_eq] at h; exact absurd h (by simp)
    | ok ws =>
        rw [ha, bind_ok_eq] at h
        injection h with h2
        injection h2 with h3
        subst h3
        have hf := convert_array_ok_forall2 arr ws ha
        exact ⟨(List.Forall₂.length_eq hf).symm, hf⟩
  · intro dict r h
    simp only [convert_plist_value] at h
    cases hd : convert_dict_vals dict with
    | error e => rw [hd, bind_error_eq] at h; exact absurd h (by simp)
    | ok vals =>
        rw [hd, bind_ok_eq] at h
        have hvlen : vals.length = dict.length := convert_dict_vals_length dict vals hd
        have hlen : (dict.map Prod.fst).length = vals.length := by simp [hvlen]
        rw [from_raw_cols_vals, if_pos hlen, bind_ok_eq] at h
        injection h with h2
        injection h2 with h3
        subst h3
        refine ⟨?_, ?_, ?_⟩
        · rw [List.length_zip, List.length_map, hvlen, min_self]
        · exact List.map_fst_zip _ _ (by simp [hvlen])
        · exact forall2_entries_zip dict vals (convert_dict_vals_ok_forall2 dict vals hd)

/-- Witness for C7: the spec's two-entry mapping decodes to the two-entry
record with the same keys in the same order. -/
theorem decode_preserves_order_count_witness :
    ([("a", NuValue.string "c"), ("b", NuValue.string "d")] :
        List (String × NuValue)).length =
      ([("a", PlistValue.string "c"), ("b", PlistValue.string "d")] :
        List (String × PlistValue)).length ∧
    ([("a", NuValue.string "c"), ("b", NuValue.string "d")] :
        List (String × NuValue)).map Prod.fst =
      ([("a", PlistValue.string "c"), ("b", PlistValue.string "d")] :
        List (String × PlistValue)).map Prod.fst ∧
    List.Forall₂
      (fun p q => p.1 = q.1 ∧ convert_plist_value p.2 = Except.ok q.2)
      ([("a", PlistValue.string "c"), ("b", PlistValue.string "d")] :
        List (String × PlistValue))
      ([("a", NuValue.string "c"), ("b", NuValue.string "d")] :
        List (String × NuValue)) :=
  decode_preserves_order_count.2.1
    [("a", PlistValue.string "c"), ("b", PlistValue.string "d")]
    [("a", NuValue.string "c"), ("b", NuValue.string "d")] rfl

/-- Claim C8: decode of a Timestamp yields a Date whose offset is always UTC
(zero), and the Timestamp at the Unix epoch decodes to the calendar date
1970-01-01 at offset zero. -/
theorem decode_timestamp_utc :
    (∀ d : ℤ, convert_plist_value (.date d) = .ok (.date (convert_date d)) ∧
      (convert_date d).offset = 0) ∧
    localCivilDate (convert_date 0) = (1970, 1, 1) :=
  ⟨fun _ => ⟨rfl, rfl⟩, by decide⟩

/-- Claim C9: a structured variant outside the nine mapped ones decodes
silently to the Nothing absence marker rather than failing. -/
theorem decode_reserved_nothing :
    convert_plist_value PlistValue.reserved = .ok NuValue.nothing := rfl

/-- Claim C10: every value the decoder produces, at any depth of the output
tree, is a String, Bool, Float, Int, Binary, Date, List, Record or Nothing;
no Filesize, LazyRecord or other dynamic variant ever appears. -/
theorem decode_output_vocabulary :
    ∀ pv v, convert_plist_value pv = .ok v → decodeImage v = true :=
  decode_ok_decodeImage

/-- Witness for C10: a mixed array whose decode exercises a string, a
rounded UniqueID Float and the reserved-variant fallback. -/
theorem decode_output_vocabulary_witness :
    decodeImage (.list [.string "x", .float 3, .nothing]) = true :=
  decode_output_vocabulary (.array [.string "x", .uid 3, .reserved])
    (.list [.string "x", .float 3, .nothing]) rfl
